import Mathlib

/-!
Verification model of the plasma storage slice
(secondary/indexer/plasma_slice.go).

The Go source is shallowly embedded: byte slices become `List Nat`
(each byte reduced mod 256 where it matters), the two KV stores become
association lists, machine integers become `Nat`/`Int` with explicit
wrap-around where the source can overflow, and floating-point rates
become exact rationals where only sign and comparison structure matter.
External collaborators (the plasma engine, the index-entry codec) are
modelled by explicit parameters or by definitions that follow the byte
layouts stated in the design document.
-/

namespace PlasmaVerif

/-- Byte strings are lists of naturals; a value is reduced mod 256 at the
points where the source reads it as a byte. -/
abbrev Bytes := List Nat

/-! ## Recovery-point metadata comparison and pairing (GetSnapshots) -/

/-- Big-endian decoding of the first 8 bytes of a metadata blob, as done by
binary.BigEndian.Uint64(a[:8]) in cmpRPMeta. The Go code panics when fewer
than 8 bytes are present; the model totalises that case (all inputs used in
theorems have at least 8 bytes). -/
def beUint64 (bs : Bytes) : Nat :=
  ((bs.take 8).map (fun b => b % 256)).foldl (fun acc b => acc * 256 + b) 0

/-- Model of cmpRPMeta: the Go source computes int(av - bv) on uint64
values, i.e. the difference mod 2^64 reinterpreted as a signed 64-bit
integer. -/
def cmpRPMeta (a b : Bytes) : Int :=
  let av : Nat := beUint64 a
  let bv : Nat := beUint64 b
  let d : Nat := (av + 2 ^ 64 - bv) % 2 ^ 64
  if d < 2 ^ 63 then (d : Int) else (d : Int) - 2 ^ 64

/-- A recovery point as the slice sees it: only its metadata blob matters
for pairing. -/
structure RecoveryPt where
  meta : Bytes
deriving DecidableEq

/-- Model of the getRPs closure inside GetSnapshots: keep the recovery
points whose metadata lies within [minRP, maxRP], skipping (continue) the
ones below minRP and stopping (break) at the first one above maxRP. -/
def getRPs (minRP maxRP : Bytes) : List RecoveryPt → List RecoveryPt
  | [] => []
  | rp :: rest =>
    if cmpRPMeta rp.meta minRP < 0 then getRPs minRP maxRP rest
    else if 0 < cmpRPMeta rp.meta maxRP then []
    else rp :: getRPs minRP maxRP rest

/-- Metadata of the first recovery point of a list, or the empty blob
(Go nil) when the list is empty. -/
def headMeta (rps : List RecoveryPt) : Bytes :=
  match rps with
  | [] => []
  | r :: _ => r.meta

/-- Metadata of the last recovery point of a list, or the empty blob. -/
def lastMeta (rps : List RecoveryPt) : Bytes :=
  match rps.getLast? with
  | none => []
  | some r => r.meta

/-- Lower pairing bound used by GetSnapshots for a non-primary slice: the
mainstore minimum, raised to the backstore minimum when the latter
compares larger. -/
def rpMinBound (mRPs bRPs : List RecoveryPt) : Bytes :=
  match bRPs with
  | [] => headMeta mRPs
  | r :: _ => if 0 < cmpRPMeta r.meta (headMeta mRPs) then r.meta else headMeta mRPs

/-- Upper pairing bound used by GetSnapshots for a non-primary slice. -/
def rpMaxBound (mRPs bRPs : List RecoveryPt) : Bytes :=
  match bRPs.getLast? with
  | none => lastMeta mRPs
  | some r => if cmpRPMeta r.meta (lastMeta mRPs) < 0 then r.meta else lastMeta mRPs

/-- Result element of GetSnapshots: the paired recovery points of a
snapshot info (bRP is absent for a primary slice). -/
structure SnapInfoM where
  mRP : RecoveryPt
  bRP : Option RecoveryPt
deriving DecidableEq

/-- Model of plasmaSlice.GetSnapshots: clip both recovery-point lists to
the common min/max metadata bounds, return empty when the clipped lists
have different lengths (non-primary only), and otherwise pair them
positionally in reverse (most recent first). JSON decoding of the
timestamp is dropped from the model; it does not affect pairing. -/
def getSnapshots (isPrimary : Bool) (mRPs bRPs : List RecoveryPt) : List SnapInfoM :=
  let minRP := if isPrimary then headMeta mRPs else rpMinBound mRPs bRPs
  let maxRP := if isPrimary then lastMeta mRPs else rpMaxBound mRPs bRPs
  let bf := if isPrimary then [] else getRPs minRP maxRP bRPs
  let mf := getRPs minRP maxRP mRPs
  if ¬ isPrimary ∧ mf.length ≠ bf.length then []
  else if isPrimary then (mf.map (fun r => ⟨r, none⟩)).reverse
  else ((mf.zip bf).map (fun p => ⟨p.1, some p.2⟩)).reverse

/-- Every recovery point kept by getRPs comes from the input list and lies
within the clipping bounds. -/
theorem mem_getRPs {minRP maxRP : Bytes} {rps : List RecoveryPt} {rp : RecoveryPt}
    (h : rp ∈ getRPs minRP maxRP rps) :
    rp ∈ rps ∧ 0 ≤ cmpRPMeta rp.meta minRP ∧ cmpRPMeta rp.meta maxRP ≤ 0 := by
  induction rps with
  | nil => simp [getRPs] at h
  | cons r rest ih =>
    rw [getRPs] at h
    by_cases h1 : cmpRPMeta r.meta minRP < 0
    · rw [if_pos h1] at h
      rcases ih h with ⟨hmem, hlo, hhi⟩
      exact ⟨List.mem_cons_of_mem _ hmem, hlo, hhi⟩
    · rw [if_neg h1] at h
      by_cases h2 : 0 < cmpRPMeta r.meta maxRP
      · rw [if_pos h2] at h
        simp at h
      · rw [if_neg h2] at h
        rcases List.mem_cons.mp h with h3 | h3
        · subst h3
          exact ⟨List.mem_cons_self _ _, le_of_not_lt h1, le_of_not_lt h2⟩
        · rcases ih h3 with ⟨hmem, hlo, hhi⟩
          exact ⟨List.mem_cons_of_mem _ hmem, hlo, hhi⟩

/-- C1, amended part: for a non-primary slice, every pair returned by
GetSnapshots consists of one mainstore recovery point and one backstore
recovery point, each within the common min/max metadata bounds; the
pairing is positional, and a length mismatch of the clipped lists yields
an empty result. -/
theorem getSnapshots_pairs_positional (mRPs bRPs : List RecoveryPt) :
    (∀ info ∈ getSnapshots false mRPs bRPs,
        (info.mRP ∈ mRPs ∧
          0 ≤ cmpRPMeta info.mRP.meta (rpMinBound mRPs bRPs) ∧
          cmpRPMeta info.mRP.meta (rpMaxBound mRPs bRPs) ≤ 0) ∧
        ∃ b, info.bRP = some b ∧ b ∈ bRPs ∧
          0 ≤ cmpRPMeta b.meta (rpMinBound mRPs bRPs) ∧
          cmpRPMeta b.meta (rpMaxBound mRPs bRPs) ≤ 0) ∧
    ((getRPs (rpMinBound mRPs bRPs) (rpMaxBound mRPs bRPs) mRPs).length ≠
        (getRPs (rpMinBound mRPs bRPs) (rpMaxBound mRPs bRPs) bRPs).length →
      getSnapshots false mRPs bRPs = []) := by
  constructor
  · intro info hinfo
    simp only [getSnapshots, Bool.false_eq_true, if_false, not_false_eq_true, true_and] at hinfo
    by_cases hlen : (getRPs (rpMinBound mRPs bRPs) (rpMaxBound mRPs bRPs) mRPs).length ≠
        (getRPs (rpMinBound mRPs bRPs) (rpMaxBound mRPs bRPs) bRPs).length
    · rw [if_pos hlen] at hinfo
      simp at hinfo
    · rw [if_neg hlen] at hinfo
      rw [List.mem_reverse, List.mem_map] at hinfo
      rcases hinfo with ⟨p, hp, hpe⟩
      have hm := (List.of_mem_zip hp).1
      have hb := (List.of_mem_zip hp).2
      rcases mem_getRPs hm with ⟨hm1, hm2, hm3⟩
      rcases mem_getRPs hb with ⟨hb1, hb2, hb3⟩
      subst hpe
      exact ⟨⟨hm1, hm2, hm3⟩, p.2, rfl, hb1, hb2, hb3⟩
  · intro hlen
    simp only [getSnapshots, Bool.false_eq_true, if_false, not_false_eq_true, true_and]
    rw [if_pos hlen]

/-- Witness for the amended C1 theorem at a concrete input: a singleton
pair of identical recovery points is returned and satisfies the bounds. -/
theorem getSnapshots_pairs_positional_witness :
    ((⟨⟨[0, 0, 0, 0, 0, 0, 0, 1]⟩, some ⟨[0, 0, 0, 0, 0, 0, 0, 1]⟩⟩ : SnapInfoM).mRP
        ∈ [(⟨[0, 0, 0, 0, 0, 0, 0, 1]⟩ : RecoveryPt)]) := by
  have h := (getSnapshots_pairs_positional
      [⟨[0, 0, 0, 0, 0, 0, 0, 1]⟩] [⟨[0, 0, 0, 0, 0, 0, 0, 1]⟩]).1
      ⟨⟨[0, 0, 0, 0, 0, 0, 0, 1]⟩, some ⟨[0, 0, 0, 0, 0, 0, 0, 1]⟩⟩ (by decide)
  exact h.1.1

/-- C1, counterexample: with mainstore prefixes 1,2,4 and backstore
prefixes 1,3,4 the clipped lists have equal length 3, so GetSnapshots
returns pairs, and the middle pair joins metadata 2 with metadata 3 whose
first 8 bytes differ; the claimed byte-for-byte prefix match fails. -/
theorem getSnapshots_mismatched_pair_cex :
    ∃ info ∈ getSnapshots false
        [⟨[0, 0, 0, 0, 0, 0, 0, 1]⟩, ⟨[0, 0, 0, 0, 0, 0, 0, 2]⟩, ⟨[0, 0, 0, 0, 0, 0, 0, 4]⟩]
        [⟨[0, 0, 0, 0, 0, 0, 0, 1]⟩, ⟨[0, 0, 0, 0, 0, 0, 0, 3]⟩, ⟨[0, 0, 0, 0, 0, 0, 0, 4]⟩],
      info.bRP.isSome ∧
        info.bRP.map (fun r => r.meta.take 8) ≠ some (info.mRP.meta.take 8) := by
  decide

/-! ## Mutation router (Insert / Delete) -/

/-- The mutation metadata fields that the router consults. -/
structure MutationMeta where
  vbucket : Nat
  firstSnap : Bool
deriving DecidableEq

/-- Mutation opcodes dispatched by the worker loop. -/
inductive MutOp
  | opUpdate
  | opInsert
  | opDelete
deriving DecidableEq

/-- An indexMutation as placed on a worker channel. -/
structure IndexMut where
  op : MutOp
  key : Bytes
  docid : Bytes
deriving DecidableEq

/-- Router state: the queue-depth counter qCount and the log of sent
mutations, most recent first, each tagged with its worker-channel index. -/
structure RouterSt where
  qCount : Int
  sent : List (Nat × IndexMut)
deriving DecidableEq

/-- Model of plasmaSlice.Insert: pick opInsert when the mutation is the
first for the doc (firstSnap) and opUpdate otherwise, increment qCount,
and send on channel vbucket mod numWriters. -/
def routerInsert (numWriters : Nat) (key docid : Bytes) (meta : MutationMeta)
    (st : RouterSt) : RouterSt :=
  let op := if meta.firstSnap then MutOp.opInsert else MutOp.opUpdate
  { qCount := st.qCount + 1,
    sent := (meta.vbucket % numWriters, ⟨op, key, docid⟩) :: st.sent }

/-- Model of plasmaSlice.Delete: only a non-firstSnap mutation increments
qCount and is sent (with a nil key) on channel vbucket mod numWriters; a
firstSnap delete is dropped entirely. -/
def routerDelete (numWriters : Nat) (docid : Bytes) (meta : MutationMeta)
    (st : RouterSt) : RouterSt :=
  if meta.firstSnap then st
  else
    { qCount := st.qCount + 1,
      sent := (meta.vbucket % numWriters, ⟨MutOp.opDelete, [], docid⟩) :: st.sent }

/-- C2, counterexample: Delete with firstSnap set leaves the queue-depth
counter untouched and sends nothing, so not every Delete call increments
the counter and enqueues a mutation. -/
theorem routerDelete_firstSnap_cex :
    routerDelete 2 [7] ⟨5, true⟩ ⟨0, []⟩ = ⟨0, []⟩ ∧
      (routerDelete 2 [7] ⟨5, true⟩ ⟨0, []⟩).qCount = 0 ∧
      (routerDelete 2 [7] ⟨5, true⟩ ⟨0, []⟩).sent = [] := by
  exact ⟨rfl, rfl, rfl⟩

/-- A call to the router, as issued by the flusher. -/
inductive RouterCall
  | ins (key docid : Bytes) (meta : MutationMeta)
  | del (docid : Bytes) (meta : MutationMeta)

/-- Apply a sequence of router calls in order. -/
def applyCalls (numWriters : Nat) : List RouterCall → RouterSt → RouterSt
  | [], st => st
  | RouterCall.ins k d m :: rest, st => applyCalls numWriters rest (routerInsert numWriters k d m st)
  | RouterCall.del d m :: rest, st => applyCalls numWriters rest (routerDelete numWriters d m st)

/-- The number of router calls that actually enqueue a mutation: every
Insert, and every Delete whose meta is not firstSnap. -/
def effectiveCalls : List RouterCall → Nat
  | [] => 0
  | RouterCall.ins _ _ _ :: rest => effectiveCalls rest + 1
  | RouterCall.del _ m :: rest => (if m.firstSnap then 0 else 1) + effectiveCalls rest

/-- C2, amended: every Insert increments qCount by one and sends on
channel vbucket mod numWriters; a Delete does the same exactly when its
meta is not firstSnap (a firstSnap Delete is a no-op); consequently over
any call sequence qCount grows by the number of effective calls and every
logged mutation sits on channel vbucket mod numWriters. -/
theorem router_queue_accounting (numWriters : Nat) (key docid : Bytes)
    (meta : MutationMeta) (st : RouterSt) (calls : List RouterCall) :
    ((routerInsert numWriters key docid meta st).qCount = st.qCount + 1 ∧
      (routerInsert numWriters key docid meta st).sent =
        (meta.vbucket % numWriters,
          ⟨if meta.firstSnap then MutOp.opInsert else MutOp.opUpdate, key, docid⟩) :: st.sent) ∧
    (meta.firstSnap = false →
      (routerDelete numWriters docid meta st).qCount = st.qCount + 1 ∧
      (routerDelete numWriters docid meta st).sent =
        (meta.vbucket % numWriters, ⟨MutOp.opDelete, [], docid⟩) :: st.sent) ∧
    (meta.firstSnap = true → routerDelete numWriters docid meta st = st) ∧
    (applyCalls numWriters calls st).qCount = st.qCount + effectiveCalls calls := by
  refine ⟨⟨rfl, rfl⟩, ?_, ?_, ?_⟩
  · intro hf
    constructor <;> simp [routerDelete, hf]
  · intro hf
    simp [routerDelete, hf]
  · induction calls generalizing st with
    | nil => simp [applyCalls, effectiveCalls]
    | cons c rest ih =>
      cases c with
      | ins k d m =>
        simp only [applyCalls, effectiveCalls, ih, routerInsert]
        omega
      | del d m =>
        cases hf : m.firstSnap with
        | true =>
          simp only [applyCalls, effectiveCalls, ih, routerDelete, hf, if_true]
          omega
        | false =>
          simp only [applyCalls, effectiveCalls, ih, routerDelete, hf, Bool.false_eq_true,
            if_false]
          omega

/-- Witness for the amended C2 theorem at concrete inputs. -/
theorem router_queue_accounting_witness :
    (routerDelete 3 [9] ⟨7, false⟩ ⟨2, []⟩).qCount = 2 + 1 ∧
      (routerDelete 3 [9] ⟨7, false⟩ ⟨2, []⟩).sent =
        [(7 % 3, ⟨MutOp.opDelete, [], [9]⟩)] := by
  have h := (router_queue_accounting 3 [1] [9] ⟨7, false⟩ ⟨2, []⟩ []).2.1 (by decide)
  exact ⟨h.1, h.2⟩

/-! ## Queue-drain gates (NewSnapshot, Rollback, FlushDone) -/

/-- Model of the queue check in plasmaSlice.NewSnapshot, taken after
waitPersist: a positive qCount crashes the process (none); otherwise the
dirty flag is cleared and a snapshot info is produced. The returned Bool
mirrors the Committed field. -/
def newSnapshotGate (qCount : Int) (commit : Bool) : Option Bool :=
  if 0 < qCount then none else some commit

/-- Model of the queue check in plasmaSlice.Rollback, taken after
waitPersist and waitForPersistorThread: a positive qCount crashes the
process; otherwise the restore proceeds. -/
def rollbackGate (qCount : Int) : Option Unit :=
  if 0 < qCount then none else some ()

/-- Model of plasmaSlice.FlushDone: when writer tuning is disabled it
returns immediately (some false: adjustWriters not reached, no check);
otherwise, after waitPersist, a positive qCount crashes the process, and
a zero count reaches adjustWriters (some true). -/
def flushDoneGate (enableWriterTuning : Bool) (qCount : Int) : Option Bool :=
  if ¬ enableWriterTuning then some false
  else if 0 < qCount then none else some true

/-- C3, counterexample: with writer tuning disabled, FlushDone called with
a non-zero queue-depth counter returns normally instead of aborting, so
FlushDone does not always check the counter at entry. -/
theorem flushDoneGate_no_check_cex : flushDoneGate false 5 = some false := by
  rfl

/-- C3, amended: with pending mutations (positive qCount), NewSnapshot and
Rollback always abort, and FlushDone aborts exactly when writer tuning is
enabled; with tuning disabled FlushDone returns without reaching the
check or adjustWriters. In particular no snapshot, rollback, or writer
adjustment is ever performed with a non-zero counter. -/
theorem queue_gates_abort (qCount : Int) (commit : Bool) (hq : 0 < qCount) :
    newSnapshotGate qCount commit = none ∧
      rollbackGate qCount = none ∧
      flushDoneGate true qCount = none ∧
      flushDoneGate false qCount = some false := by
  refine ⟨?_, ?_, ?_, rfl⟩
  · simp [newSnapshotGate, hq]
  · simp [rollbackGate, hq]
  · simp [flushDoneGate, hq]

/-- Witness for the amended C3 theorem at a concrete positive count. -/
theorem queue_gates_abort_witness :
    (0 : Int) < 5 ∧ newSnapshotGate 5 true = none := by
  exact ⟨by decide, (queue_gates_abort 5 true (by decide)).1⟩

/-! ## Index entries and back entries -/

/-- Two-byte little-endian encoding of a count, as stored at the end of a
back entry. -/
def count16LE (n : Nat) : Bytes := [n % 256, n / 256 % 256]

/-- Little-endian decoding of a two-byte count
(binary.LittleEndian.Uint16). -/
def leUint16 (bs : Bytes) : Nat :=
  match bs with
  | [a, b] => a % 256 + b % 256 * 256
  | _ => 0

/-- A secondary forward-index entry, kept in structured form: the encoded
secondary key bytes, the docid bytes, and the multiplicity count. -/
structure SecIndexEntry where
  key : Bytes
  docid : Bytes
  count : Nat
deriving DecidableEq

/-- The count is written into the entry bytes only when it exceeds one
(the codec convention behind the isCountEncoded accessor). -/
def SecIndexEntry.isCountEncoded (e : SecIndexEntry) : Bool := 1 < e.count

/-- The lenKey accessor. -/
def SecIndexEntry.lenKey (e : SecIndexEntry) : Nat := e.key.length

/-- The lenDocId accessor. -/
def SecIndexEntry.lenDocId (e : SecIndexEntry) : Nat := e.docid.length

/-- Modelled from the spec: the external index-entry codec serialises a
forward entry as (key-bytes | docid-bytes | optional two-byte count |
length footers); the footer here records the docid length together with a
count-presence flag bit, which is all the accessors need. The codec
itself (NewSecondaryIndexEntry and friends) is repository code outside
src/. -/
def SecIndexEntry.bytes (e : SecIndexEntry) : Bytes :=
  e.key ++ e.docid ++ (if e.isCountEncoded then count16LE e.count else []) ++
    [e.docid.length % 256, e.docid.length / 256 % 64 + (if e.isCountEncoded then 128 else 0)]

/-- The Count accessor: an entry with no encoded count has multiplicity
one. -/
def SecIndexEntry.countVal (e : SecIndexEntry) : Nat :=
  if e.isCountEncoded then e.count else 1

/-- Model of entry2BackEntry: working on the serialised entry, keep the
first lenKey bytes, then the two count bytes — copied down from position
lenKey+lenDocId when the count is encoded, and zeroed otherwise. -/
def entry2BackEntry (e : SecIndexEntry) : Bytes :=
  let buf := e.bytes
  let kl := e.lenKey
  if e.isCountEncoded then
    buf.take kl ++ (buf.drop (kl + e.lenDocId)).take 2
  else
    buf.take kl ++ [0, 0]

/-- Model of backEntry2entry: the back entry is (secondary key | 2-byte
little-endian count); rebuild the forward entry from its key part, the
given docid and the decoded count. -/
def backEntry2entry (docid bentry : Bytes) : SecIndexEntry :=
  ⟨bentry.take (bentry.length - 2), docid, leUint16 (bentry.drop (bentry.length - 2))⟩

/-- Decoding inverts the two-byte count encoding below 2^16. -/
theorem leUint16_count16LE (n : Nat) (h : n < 65536) : leUint16 (count16LE n) = n := by
  simp only [count16LE, leUint16]
  omega

/-- The serialised form of entry2BackEntry: the key bytes followed by the
two count bytes. -/
theorem entry2BackEntry_eq (e : SecIndexEntry) :
    entry2BackEntry e =
      e.key ++ (if e.isCountEncoded then count16LE e.count else [0, 0]) := by
  have htake : e.bytes.take e.lenKey = e.key := by
    have : e.bytes = e.key ++ (e.docid ++ (if e.isCountEncoded then count16LE e.count else []) ++
        [e.docid.length % 256, e.docid.length / 256 % 64 + (if e.isCountEncoded then 128 else 0)]) := by
      simp [SecIndexEntry.bytes]
    rw [SecIndexEntry.lenKey, this, List.take_left]
  cases hc : e.isCountEncoded with
  | false =>
    simp only [entry2BackEntry, hc, Bool.false_eq_true, if_false]
    rw [htake]
  | true =>
    simp only [entry2BackEntry, hc, if_true]
    rw [htake]
    have hdrop : e.bytes.drop (e.lenKey + e.lenDocId) =
        count16LE e.count ++
          [e.docid.length % 256, e.docid.length / 256 % 64 + 128] := by
      have hb : e.bytes = (e.key ++ e.docid) ++ (count16LE e.count ++
          [e.docid.length % 256, e.docid.length / 256 % 64 + 128]) := by
        simp [SecIndexEntry.bytes, hc]
      rw [hb]
      have hlen : e.lenKey + e.lenDocId = (e.key ++ e.docid).length := by
        simp [SecIndexEntry.lenKey, SecIndexEntry.lenDocId]
      rw [hlen, List.drop_left]
    rw [hdrop]
    have : (count16LE e.count ++
        [e.docid.length % 256, e.docid.length / 256 % 64 + 128]).take 2 = count16LE e.count := by
      apply List.take_left'
      simp [count16LE]
    rw [this]

/-- C9: converting a forward entry to its back-entry form and rebuilding a
forward entry from that back entry preserves the (secondary key, count)
projection, for every well-formed entry (count below 2^16, the width of
the back-entry count field). -/
theorem backEntry_roundtrip (e : SecIndexEntry) (d : Bytes) (hc : e.count < 65536) :
    (backEntry2entry d (entry2BackEntry e)).key = e.key ∧
      (backEntry2entry d (entry2BackEntry e)).countVal = e.countVal ∧
      (backEntry2entry d (entry2BackEntry e)).docid = d := by
  rw [entry2BackEntry_eq]
  set suf : Bytes := if e.isCountEncoded then count16LE e.count else [0, 0] with hsuf
  have hsl : suf.length = 2 := by
    cases hce : e.isCountEncoded <;> simp [hsuf, hce, count16LE]
  have hlen : (e.key ++ suf).length - 2 = e.key.length := by
    rw [List.length_append, hsl]
    omega
  have htake : (e.key ++ suf).take ((e.key ++ suf).length - 2) = e.key := by
    rw [hlen]
    exact List.take_left _ _
  have hdrop : (e.key ++ suf).drop ((e.key ++ suf).length - 2) = suf := by
    rw [hlen]
    exact List.drop_left _ _
  have hcv : ∀ (k dd : Bytes) (c : Nat),
      (⟨k, dd, c⟩ : SecIndexEntry).countVal = if 1 < c then c else 1 := by
    intro k dd c
    simp [SecIndexEntry.countVal, SecIndexEntry.isCountEncoded]
  have hcve : e.countVal = if 1 < e.count then e.count else 1 := by
    simp [SecIndexEntry.countVal, SecIndexEntry.isCountEncoded]
  refine ⟨htake, ?_, rfl⟩
  show SecIndexEntry.countVal ⟨_, d, leUint16 ((e.key ++ suf).drop ((e.key ++ suf).length - 2))⟩ =
    e.countVal
  rw [hdrop, hcv, hcve]
  cases hce : e.isCountEncoded with
  | false =>
    have hle : ¬ 1 < e.count := by
      intro hgt
      simp [SecIndexEntry.isCountEncoded, hgt] at hce
    have hsv : suf = [0, 0] := by
      rw [hsuf, hce]
      simp
    rw [hsv]
    simp [leUint16, hle]
  | true =>
    have hgt : 1 < e.count := by
      by_contra hle
      simp [SecIndexEntry.isCountEncoded, hle] at hce
    have hsv : suf = count16LE e.count := by
      rw [hsuf, hce]
      simp
    rw [hsv, leUint16_count16LE e.count hc]

/-- Witness for C9 at a concrete entry with an encoded count. -/
theorem backEntry_roundtrip_witness :
    (backEntry2entry [7] (entry2BackEntry ⟨[3, 4], [7], 5⟩)).key = [3, 4] ∧
      (backEntry2entry [7] (entry2BackEntry ⟨[3, 4], [7], 5⟩)).countVal =
        (⟨[3, 4], [7], 5⟩ : SecIndexEntry).countVal := by
  have h := backEntry_roundtrip ⟨[3, 4], [7], 5⟩ [7] (by decide)
  exact ⟨h.1, h.2.1⟩

/-! ## The two stores and the scalar secondary-index paths -/

/-- The slice state visible to the scalar insert and delete paths: the
mainstore as the list of serialised forward entries, the backstore as an
association list from docid to back-entry value, and the dirty flag. -/
structure SecStores where
  main : List Bytes
  back : List (Bytes × Bytes)
  dirty : Bool
deriving DecidableEq

/-- LookupKV on the backstore. -/
def lookupKV (back : List (Bytes × Bytes)) (d : Bytes) : Option Bytes :=
  match back with
  | [] => none
  | p :: rest => if p.1 = d then some p.2 else lookupKV rest d

/-- DeleteKV on the backstore. -/
def deleteKVback (back : List (Bytes × Bytes)) (d : Bytes) : List (Bytes × Bytes) :=
  back.filter (fun p => decide (p.1 ≠ d))

/-- DeleteKV on the mainstore. -/
def deleteKVmain (main : List Bytes) (b : Bytes) : List Bytes :=
  main.filter (fun x => decide (x ≠ b))

/-- Model of hasEqualBackEntry: a nil key or a JSON-encoded key never
matches; otherwise compare the key with the back entry minus its two
count bytes. The isJSONEncoded predicate is repository code outside src/
and is supplied as the parameter jsonEnc. -/
def hasEqualBackEntry (jsonEnc : Bytes → Bool) (key : Option Bytes) (bentry : Bytes) : Bool :=
  match key with
  | none => false
  | some k => if jsonEnc k then false else decide (k = bentry.take (bentry.length - 2))

/-- Model of plasmaSlice.deleteSecIndex for a non-array secondary index:
look up the docid in the backstore; if the stored back entry equals the
compare key, report (0, false) without touching anything; otherwise
delete the docid from the backstore and the rebuilt forward entry from
the mainstore. The dirty flag is set and (1, true) returned even when the
docid was not found. -/
def deleteSecIndex (jsonEnc : Bytes → Bool) (st : SecStores) (docid : Bytes)
    (compareKey : Option Bytes) : SecStores × Nat × Bool :=
  match lookupKV st.back docid with
  | some backEntry =>
    if hasEqualBackEntry jsonEnc compareKey backEntry then (st, 0, false)
    else
      ({ main := deleteKVmain st.main (backEntry2entry docid backEntry).bytes,
         back := deleteKVback st.back docid,
         dirty := true }, 1, true)
  | none => ({ st with dirty := true }, 1, true)

/-- Model of plasmaSlice.insertSecIndex for a non-array secondary index
with no descending keys: unless the doc is new (init), first run
deleteSecIndex with the new key and stop with 0 when it reports the back
entry unchanged; then build the forward entry (the oversize soft failure
of the external codec is modelled by the allowLargeKeys flag and maximum
key size, returning the delete count), insert it into the mainstore and
its back-entry form into the backstore, and set the dirty flag. -/
def insertSecIndex (jsonEnc : Bytes → Bool) (allowLargeKeys : Bool) (maxKeySz : Nat)
    (st : SecStores) (key docid : Bytes) (init : Bool) : SecStores × Nat :=
  let step1 : SecStores × Nat × Bool :=
    if init then (st, 0, true) else deleteSecIndex jsonEnc st docid (some key)
  match step1 with
  | (st1, ndel, changed) =>
    if ¬ changed then (st1, 0)
    else if ¬ allowLargeKeys ∧ maxKeySz < key.length then (st1, ndel)
    else
      let entry : SecIndexEntry := ⟨key, docid, 1⟩
      if 0 < key.length then
        ({ main := entry.bytes :: st1.main,
           back := (docid, entry2BackEntry entry) :: st1.back,
           dirty := true }, 1)
      else ({ st1 with dirty := true }, 1)

/-- C4: inserting (k, d) when the backstore already maps d to the
back-entry form of the encoded forward entry for (k, d) short-circuits:
no store is touched and the worker returns 0 (non-firstSnap path, key not
JSON-encoded). -/
theorem insert_unchanged_shortcircuit (jsonEnc : Bytes → Bool) (allowLargeKeys : Bool)
    (maxKeySz : Nat) (st : SecStores) (key docid : Bytes)
    (hjson : jsonEnc key = false)
    (hback : lookupKV st.back docid = some (entry2BackEntry ⟨key, docid, 1⟩)) :
    insertSecIndex jsonEnc allowLargeKeys maxKeySz st key docid false = (st, 0) := by
  have hbe : entry2BackEntry ⟨key, docid, 1⟩ = key ++ [0, 0] := by
    rw [entry2BackEntry_eq]
    simp [SecIndexEntry.isCountEncoded]
  have heq : hasEqualBackEntry jsonEnc (some key) (entry2BackEntry ⟨key, docid, 1⟩) = true := by
    rw [hbe]
    simp only [hasEqualBackEntry, hjson, Bool.false_eq_true, if_false, decide_eq_true_eq]
    rw [List.length_append]
    simp only [List.length_cons, List.length_nil, Nat.add_sub_cancel]
    exact (List.take_left _ _).symm
  have hdel : deleteSecIndex jsonEnc st docid (some key) = (st, 0, false) := by
    rw [deleteSecIndex, hback]
    simp [heq]
  simp only [insertSecIndex, Bool.false_eq_true, if_false, hdel]
  simp

/-- Witness for C4 at a concrete store. -/
theorem insert_unchanged_shortcircuit_witness :
    insertSecIndex (fun _ => false) false 100
      ⟨[[9, 7, 1, 0]], [([7], [9, 0, 0])], false⟩ [9] [7] false =
      (⟨[[9, 7, 1, 0]], [([7], [9, 0, 0])], false⟩, 0) := by
  exact insert_unchanged_shortcircuit (fun _ => false) false 100
    ⟨[[9, 7, 1, 0]], [([7], [9, 0, 0])], false⟩ [9] [7] rfl (by decide)

/-- C10: deleteSecIndex on a docid absent from the backstore touches
neither store, yet sets the dirty flag and reports (1, true). -/
theorem deleteSecIndex_missing_doc (jsonEnc : Bytes → Bool) (st : SecStores) (docid : Bytes)
    (h : lookupKV st.back docid = none) :
    deleteSecIndex jsonEnc st docid none = ({ st with dirty := true }, 1, true) := by
  rw [deleteSecIndex, h]

/-- Witness for C10 at a concrete store: the stores are unchanged, dirty
is set, and one mutation is reported although nothing was deleted. -/
theorem deleteSecIndex_missing_doc_witness :
    deleteSecIndex (fun _ => false) ⟨[[1, 2]], [([5], [6, 0, 0])], false⟩ [7] none =
      (⟨[[1, 2]], [([5], [6, 0, 0])], true⟩, 1, true) := by
  exact deleteSecIndex_missing_doc (fun _ => false)
    ⟨[[1, 2]], [([5], [6, 0, 0])], false⟩ [7] (by decide)

/-! ## Persistor concurrency hint -/

/-- Model of the concurrency hint computed in doPersistSnapshot:
int(float32(NumCPU) * float32(persistenceCPUPercent) / (100*2) + 0.75).
The arithmetic is modelled by exact rationals (float32 is exact on the
inputs relevant here) and the Go int conversion of a nonnegative operand
is the floor. -/
def persistConcurrency (ncpu pct : Nat) : Int :=
  ⌊(ncpu : ℚ) * (pct : ℚ) / (100 * 2) + 3 / 4⌋

/-- The formula as the specification words it:
ceil(NumCPU * persistenceCPUPercent / 200 + 0.75). -/
def persistConcurrencySpec (ncpu pct : Nat) : Int :=
  ⌈(ncpu : ℚ) * (pct : ℚ) / 200 + 3 / 4⌉

/-- C8, counterexample: at NumCPU = 8 and persistenceCPUPercent = 50 the
code computes int(2.75) = 2 while the claimed ceiling formula gives 3. -/
theorem persistConcurrency_cex :
    persistConcurrency 8 50 = 2 ∧ persistConcurrencySpec 8 50 = 3 := by
  constructor
  · rw [persistConcurrency]
    norm_num
  · rw [persistConcurrencySpec]
    rw [show ((8 : Nat) : ℚ) * ((50 : Nat) : ℚ) / 200 + 3 / 4 = 11 / 4 by norm_num]
    rw [Int.ceil_eq_iff]
    constructor <;> norm_num

/-- C8, amended: for every NumCPU and persistenceCPUPercent, the hint is
the truncation (floor) of NumCPU * pct / 200 + 0.75, which equals the
integer division (NumCPU * pct + 150) / 200. -/
theorem persistConcurrency_eq_div (ncpu pct : Nat) :
    persistConcurrency ncpu pct = ((ncpu * pct + 150) / 200 : Nat) := by
  rw [persistConcurrency]
  have h : (ncpu : ℚ) * (pct : ℚ) / (100 * 2) + 3 / 4 =
      ((ncpu * pct + 150 : Nat) : ℚ) / ((200 : Nat) : ℚ) := by
    push_cast
    ring
  rw [h, Rat.floor_natCast_div_natCast]
  generalize ncpu * pct = m
  omega

/-! ## Array secondary-index paths -/

/-- Serialised entry for one array element of a document. -/
def mkArrEntry (item docid : Bytes) (count : Nat) : Bytes :=
  (⟨item, docid, count⟩ : SecIndexEntry).bytes

/-- Model of plasmaSlice.deleteSecArrayIndex for an index with no
descending keys: look up the old composite key in the backstore (absent
means nothing to do, 0 returned, dirty untouched); split it into its
per-element entries with ArrayIndexItems (a codec external to this file,
passed as arrItems; a split error crashes the process, modelled by none);
delete each element entry from the mainstore (an encode failure, modelled
by encErr, likewise crashes); finally delete the docid from the backstore
and set the dirty flag, returning the number of element entries. -/
def deleteSecArrayIndex (arrItems : Bytes → Bool → Option (List (Bytes × Nat)))
    (encErr : Bytes → Bool) (st : SecStores) (docid : Bytes) : Option (SecStores × Nat) :=
  match lookupKV st.back docid with
  | none => some (st, 0)
  | some olditm =>
    match arrItems olditm false with
    | none => none
    | some items =>
      if items.any (fun p => encErr p.1) then none
      else
        some ({ main := items.foldl (fun m p => deleteKVmain m (mkArrEntry p.1 docid p.2)) st.main,
                back := deleteKVback st.back docid,
                dirty := true }, items.length)

/-- The abort path shared by the soft failures of insertSecArrayIndex:
run a full deleteSecArrayIndex for the docid and return 0. -/
def abortViaDelete (arrItems : Bytes → Bool → Option (List (Bytes × Nat)))
    (encErr : Bytes → Bool) (st : SecStores) (docid : Bytes) : Option (SecStores × Nat) :=
  match deleteSecArrayIndex arrItems encErr st docid with
  | none => none
  | some (st1, _) => some (st1, 0)

/-- Delete the mask-selected element entries from the mainstore, counting
the mutations (the main delete loop of insertSecArrayIndex). -/
def arrDeleteAll (docid : Bytes) (pairs : List ((Bytes × Nat) × Bool))
    (main : List Bytes) : List Bytes × Nat :=
  pairs.foldl
    (fun acc p => if p.2 then (deleteKVmain acc.1 (mkArrEntry p.1.1 docid p.1.2), acc.2 + 1)
      else acc)
    (main, 0)

/-- Re-insert the mask-selected element entries (the rollbackDeletes
helper). -/
def arrReinsert (docid : Bytes) (pairs : List ((Bytes × Nat) × Bool))
    (main : List Bytes) : List Bytes :=
  pairs.foldl (fun m p => if p.2 then mkArrEntry p.1.1 docid p.1.2 :: m else m) main

/-- Delete the mask-selected element entries again (the rollbackAdds
helper). -/
def arrUndoAdds (docid : Bytes) (pairs : List ((Bytes × Nat) × Bool))
    (main : List Bytes) : List Bytes :=
  pairs.foldl (fun m p => if p.2 then deleteKVmain m (mkArrEntry p.1.1 docid p.1.2) else m) main

/-- Insert the mask-selected element entries, counting the mutations (the
main insert loop of insertSecArrayIndex). -/
def arrInsertAll (docid : Bytes) (pairs : List ((Bytes × Nat) × Bool))
    (acc : List Bytes × Nat) : List Bytes × Nat :=
  pairs.foldl
    (fun acc p => if p.2 then (mkArrEntry p.1.1 docid p.1.2 :: acc.1, acc.2 + 1) else acc)
    acc

/-- Model of plasmaSlice.insertSecArrayIndex for an index with no
descending keys. Oversize guard first: with large keys disallowed and the
encoded key longer than the configured maximum, run a full
deleteSecArrayIndex and return 0. Otherwise look up the prior key (unless
firstSnap/init), no-op when unchanged, split old and new keys into
element entries (split errors abort via deleteSecArrayIndex), diff them
into aligned add/delete masks (CompareArrayEntriesWithCount is external,
passed as cmpArr, modelled from the spec as returning aligned masks whose
nil slots are skipped), apply the deletes then the inserts to the
mainstore - an encode failure rolls back this call's work and aborts via
deleteSecArrayIndex - and finally replace the docid's backstore entry
with the new composite key and set the dirty flag. -/
def insertSecArrayIndex (arrItems : Bytes → Bool → Option (List (Bytes × Nat)))
    (cmpArr : List (Bytes × Nat) → List (Bytes × Nat) → List Bool × List Bool)
    (encErr : Bytes → Bool) (allowLargeKeys : Bool) (maxArrSz : Nat)
    (st : SecStores) (key docid : Bytes) (init : Bool) : Option (SecStores × Nat) :=
  if ¬ allowLargeKeys ∧ maxArrSz < key.length then
    abortViaDelete arrItems encErr st docid
  else
    let oldkey : Option Bytes := if init then none else lookupKV st.back docid
    if oldkey = some key then some (st, 0)
    else
      match (match oldkey with
             | none => some []
             | some k0 => arrItems k0 false : Option (List (Bytes × Nat))) with
      | none => abortViaDelete arrItems encErr st docid
      | some oldEntries =>
        match (if key ≠ [] then arrItems key (¬ allowLargeKeys) else
               some [] : Option (List (Bytes × Nat))) with
        | none => abortViaDelete arrItems encErr st docid
        | some newEntries =>
          let masks : List Bool × List Bool :=
            if oldEntries.length = 0 then (newEntries.map (fun _ => true), [])
            else if newEntries.length = 0 then ([], oldEntries.map (fun _ => true))
            else cmpArr newEntries oldEntries
          let delPairs := oldEntries.zip masks.2
          let addPairs := newEntries.zip masks.1
          match delPairs.findIdx? (fun p => p.2 ∧ encErr p.1.1) with
          | some i =>
            let mPart := (arrDeleteAll docid (delPairs.take i) st.main).1
            abortViaDelete arrItems encErr
              { st with main := arrReinsert docid (delPairs.take i) mPart } docid
          | none =>
            let afterDel := arrDeleteAll docid delPairs st.main
            match addPairs.findIdx? (fun p => p.2 ∧ encErr p.1.1) with
            | some i =>
              let mPart := (arrInsertAll docid (addPairs.take i) afterDel).1
              let mRb := arrUndoAdds docid (addPairs.take i)
                (arrReinsert docid delPairs mPart)
              abortViaDelete arrItems encErr { st with main := mRb } docid
            | none =>
              let afterAdd := arrInsertAll docid addPairs afterDel
              let back1 := if (oldkey : Option Bytes).isSome
                then deleteKVback st.back docid else st.back
              let back2 := if key = [] then back1 else (docid, key) :: back1
              some ({ main := afterAdd.1, back := back2, dirty := true }, afterAdd.2)

/-- The per-element entries recorded for a docid: empty when the docid is
absent from the backstore, and otherwise the ArrayIndexItems split of its
stored composite key (none when the split fails). -/
def docArrItems (arrItems : Bytes → Bool → Option (List (Bytes × Nat)))
    (st : SecStores) (docid : Bytes) : Option (List (Bytes × Nat)) :=
  match lookupKV st.back docid with
  | none => some []
  | some old => arrItems old false

/-- A docid deleted from the backstore association list can no longer be
looked up. -/
theorem lookupKV_deleteKVback (back : List (Bytes × Bytes)) (d : Bytes) :
    lookupKV (deleteKVback back d) d = none := by
  induction back with
  | nil => rfl
  | cons p rest ih =>
    by_cases hp : p.1 = d
    · simp only [deleteKVback, List.filter_cons] at ih ⊢
      rw [decide_eq_false (not_not_intro hp)]
      simp only [Bool.false_eq_true, if_false]
      exact ih
    · simp only [deleteKVback, List.filter_cons] at ih ⊢
      rw [decide_eq_true hp]
      simp only [if_true]
      rw [lookupKV.eq_def]
      simp only [hp, if_false]
      exact ih

/-- Membership after the delete fold: anything still present was present
before and differs from every deleted entry. -/
theorem mem_foldl_deleteKVmain {α : Type} (f : α → Bytes) (items : List α)
    (m0 : List Bytes) (b : Bytes)
    (h : b ∈ items.foldl (fun m p => deleteKVmain m (f p)) m0) :
    b ∈ m0 ∧ ∀ p ∈ items, b ≠ f p := by
  induction items generalizing m0 with
  | nil => simpa using h
  | cons p rest ih =>
    simp only [List.foldl_cons] at h
    rcases ih _ h with ⟨hmem, hrest⟩
    simp only [deleteKVmain, List.mem_filter, decide_eq_true_eq] at hmem
    refine ⟨hmem.1, ?_⟩
    intro q hq
    rcases List.mem_cons.mp hq with hq | hq
    · subst hq
      exact hmem.2
    · exact hrest q hq

/-- C5: with large keys disallowed and an oversize encoded array key,
insertSecArrayIndex performs a full deleteSecArrayIndex for the docid and
returns 0; provided the mainstore holds only element entries derived from
the docid's backstore record (the back/forward agreement invariant) and
the codec does not fail on them, the resulting stores hold no entry for
that docid. -/
theorem insertSecArrayIndex_oversize
    (arrItems : Bytes → Bool → Option (List (Bytes × Nat)))
    (cmpArr : List (Bytes × Nat) → List (Bytes × Nat) → List Bool × List Bool)
    (encErr : Bytes → Bool) (maxArrSz : Nat) (st : SecStores) (key docid : Bytes)
    (init : Bool) (items : List (Bytes × Nat))
    (hLen : maxArrSz < key.length)
    (hitems : docArrItems arrItems st docid = some items)
    (henc : ∀ p ∈ items, encErr p.1 = false)
    (hmain : ∀ item c, c < 65536 → mkArrEntry item docid c ∈ st.main → (item, c) ∈ items) :
    ∃ st1, insertSecArrayIndex arrItems cmpArr encErr false maxArrSz st key docid init =
        some (st1, 0) ∧
      lookupKV st1.back docid = none ∧
      ∀ item c, c < 65536 → mkArrEntry item docid c ∉ st1.main := by
  have hguard : insertSecArrayIndex arrItems cmpArr encErr false maxArrSz st key docid init =
      abortViaDelete arrItems encErr st docid := by
    rw [insertSecArrayIndex, if_pos]
    exact ⟨by simp, hLen⟩
  rw [hguard]
  rw [docArrItems] at hitems
  cases hlook : lookupKV st.back docid with
  | none =>
    rw [hlook] at hitems
    have hitems0 : items = [] := by
      cases hitems
      rfl
    refine ⟨st, ?_, hlook, ?_⟩
    · rw [abortViaDelete, deleteSecArrayIndex, hlook]
    · intro item c hc hmem
      have := hmain item c hc hmem
      rw [hitems0] at this
      simp at this
  | some old =>
    rw [hlook] at hitems
    have hia : arrItems old false = some items := hitems
    have hany : items.any (fun p => encErr p.1) = false := by
      rw [List.any_eq_false]
      intro p hp
      simp [henc p hp]
    have hd : deleteSecArrayIndex arrItems encErr st docid =
        some (⟨items.foldl (fun m p => deleteKVmain m (mkArrEntry p.1 docid p.2)) st.main,
          deleteKVback st.back docid, true⟩, items.length) := by
      unfold deleteSecArrayIndex
      rw [hlook]
      simp [hia, hany]
    refine ⟨⟨items.foldl (fun m p => deleteKVmain m (mkArrEntry p.1 docid p.2)) st.main,
        deleteKVback st.back docid, true⟩, ?_, ?_, ?_⟩
    · unfold abortViaDelete
      rw [hd]
    · exact lookupKV_deleteKVback st.back docid
    · intro item c hc hmem
      have h2 := mem_foldl_deleteKVmain (fun p => mkArrEntry p.1 docid p.2) items _ _ hmem
      have h3 := hmain item c hc h2.1
      exact h2.2 (item, c) h3 rfl

/-- Witness for C5: an oversize insert against a backstore holding one
composite key for the docid deletes that backstore record and returns
0. -/
theorem insertSecArrayIndex_oversize_witness :
    ∃ st1, insertSecArrayIndex (fun b _ => some [(b, 1)]) (fun _ _ => ([], []))
        (fun _ => false) false 10 ⟨[], [([7], [5])], false⟩
        [1, 2, 3, 4, 5, 6, 7, 8, 9, 10, 11] [7] false = some (st1, 0) ∧
      lookupKV st1.back [7] = none := by
  rcases insertSecArrayIndex_oversize (fun b _ => some [(b, 1)])
      (fun _ _ => ([], [])) (fun _ => false) 10 ⟨[], [([7], [5])], false⟩
      [1, 2, 3, 4, 5, 6, 7, 8, 9, 10, 11] [7] false [([5], 1)]
      (by decide) (by decide) (by decide)
      (by intro item c hc hmem; simp at hmem) with ⟨st1, h1, h2, h3⟩
  exact ⟨st1, h1, h2⟩

/-! ## Writer auto-tuner -/

/-- Tuner-relevant slice state: the writer pool size, the allocated
channel slots (standby writers included), the global token counter of the
instance, the configured bounds, and the throttling fields. -/
structure TunerSt where
  numWriters : Nat
  cmdChLen : Nat
  tokenVal : Int
  maxNumWriters : Nat
  numPartitions : Nat
  minimumDrainRate : ℚ
  saturateCount : Nat
  threshold : Nat
  scalingFactor : ℚ
  numExpand : Nat
  numReduce : Nat
deriving DecidableEq

/-- The sampled environment an adjustment runs against: the tuning and
interval gates, the windowed drain and mutation rates (floats in the
source, exact rationals here - only their comparisons matter), the memory
gates and the random draw. -/
structure TunerEnv where
  enableWriterTuning : Bool
  shouldAdjust : Bool
  meanDrain : ℚ
  meanDrainInterval : ℚ
  meanMutation : ℚ
  minMem : Bool
  memFull : Bool
  randVal : ℚ
deriving DecidableEq

/-- Sequential model of token.decrement: with force, always take the full
amount; without force, take at most the positive balance, and nothing
when the balance is not positive. Returns the new balance and the amount
actually taken. -/
def tokDecrement (v : Int) (dec : Nat) (force : Bool) : Int × Nat :=
  if 0 < v ∨ force then
    let d : Int := if force then (dec : Int) else min (dec : Int) v
    (v - d, d.toNat)
  else (v, 0)

/-- numWritersPerPartition: ceil(maxNumWriters / numPartitions), written
with natural ceiling division (the source uses math.Ceil on floats). -/
def numWritersPerPartition (st : TunerSt) : Nat :=
  (st.maxNumWriters + st.numPartitions - 1) / st.numPartitions

/-- Model of startWriters: nothing to do when the pool is already at
least the requested size; otherwise grow the allocated slots if needed
(stopWriters(0) followed by initWriters in the source) and set the pool
size. -/
def startWriters (st : TunerSt) (n : Nat) : TunerSt :=
  if n ≤ st.numWriters then st
  else
    let st1 := if st.cmdChLen < n then { st with cmdChLen := n } else st
    { st1 with numWriters := n }

/-- Model of stopWriters: nothing to do when the pool is already at most
the requested size; otherwise shrink the pool size (the writer buffers
are reset but stay allocated). The source is only called with n below the
current pool size here. -/
def stopWriters (st : TunerSt) (n : Nat) : TunerSt :=
  if st.numWriters ≤ n then st
  else { st with numWriters := n }

/-- Model of computeMinimumDrainRate, evaluated on the post-change pool
size: the projected drain rate, padded by scalingFactor of the projected
increase on growth. -/
def computeMinimumDrainRate (env : TunerEnv) (st : TunerSt) (lastNumWriters : Nat) : ℚ :=
  let mean := env.meanDrain * lastNumWriters
  let newMean := mean * st.numWriters / lastNumWriters
  if lastNumWriters < st.numWriters then mean + (newMean - mean) * st.scalingFactor
  else newMean

/-- Model of expandWriters: the increment is the literal 1; when the mean
drain rate is positive, try to reserve one token (non-forcing) and, on
success, start one more writer and recompute the minimum drain rate; on
token failure nothing changes. -/
def expandWriters (env : TunerEnv) (st : TunerSt) : TunerSt :=
  let mean := env.meanDrain * st.numWriters
  if 0 < mean then
    let res := tokDecrement st.tokenVal 1 false
    if 0 < res.2 then
      let lastNumWriters := st.numWriters
      let st1 := startWriters { st with tokenVal := res.1 } (st.numWriters + res.2)
      { st1 with
        minimumDrainRate := computeMinimumDrainRate env st1 lastNumWriters,
        numExpand := st1.numExpand + 1 }
    else { st with tokenVal := res.1 }
  else st

/-- Model of reduceWriters: the decrement is the literal 1; stop one
writer, refund one token, recompute the minimum drain rate. -/
def reduceWriters (env : TunerEnv) (st : TunerSt) : TunerSt :=
  let lastNumWriters := st.numWriters
  let st1 := stopWriters st (st.numWriters - 1)
  let st2 := { st1 with tokenVal := st1.tokenVal + 1 }
  { st2 with
    minimumDrainRate := computeMinimumDrainRate env st2 lastNumWriters,
    numReduce := st2.numReduce + 1 }

/-- Model of meetMinimumDrainRate: bump saturateCount (up to threshold)
when the interval drain rate misses the minimum, decay it otherwise. -/
def meetMinimumDrainRate (env : TunerEnv) (st : TunerSt) : TunerSt :=
  if env.meanDrainInterval * st.numWriters < st.minimumDrainRate then
    if st.saturateCount < st.threshold then
      { st with saturateCount := st.saturateCount + 1 }
    else st
  else
    if 0 < st.saturateCount then { st with saturateCount := st.saturateCount - 1 }
    else st

/-- Model of numWritersNeeded: ceil(mutation rate / drain rate) clamped
to [1, maxNumWriters] when the drain rate is positive; 1 when both rates
are flat; the current pool size when only the drain rate is flat. -/
def numWritersNeeded (env : TunerEnv) (st : TunerSt) : Int :=
  if 0 < env.meanDrain then
    let needed0 : Int := Int.ceil (env.meanMutation / env.meanDrain)
    let needed1 : Int := if needed0 = 0 then 1 else needed0
    if (st.maxNumWriters : Int) < needed1 then st.maxNumWriters else needed1
  else if env.meanMutation ≤ 0 then 1
  else st.numWriters

/-- Model of adjustNumWritersNeeded: when the token balance is negative,
probabilistically nominate this slice to give one writer back; forbid
growth at minimum memory; cap growth at the per-partition share when
memory is 95 percent full; otherwise keep the computed need. -/
def adjustNumWritersNeeded (env : TunerEnv) (st : TunerSt) (needed : Int) : Int :=
  if st.tokenVal < 0 ∧ env.randVal < (st.numWriters : ℚ) / (st.maxNumWriters : ℚ) then
    (st.numWriters : Int) - 1
  else if env.minMem ∧ (st.numWriters : Int) < needed then st.numWriters
  else if env.memFull ∧ (st.numWriters : Int) < needed ∧
      (numWritersPerPartition st : Int) < needed then
    if numWritersPerPartition st < st.numWriters then (st.numWriters : Int)
    else (numWritersPerPartition st : Int)
  else needed

/-- canExpandWriters: tuning on, below the ceiling, and more writers
needed than present. -/
def canExpandWriters (env : TunerEnv) (st : TunerSt) (needed : Int) : Bool :=
  env.enableWriterTuning && decide (st.numWriters < st.maxNumWriters) &&
    decide ((st.numWriters : Int) < needed)

/-- canReduceWriters: tuning on, above one writer, and fewer writers
needed than present. -/
def canReduceWriters (env : TunerEnv) (st : TunerSt) (needed : Int) : Bool :=
  env.enableWriterTuning && decide (1 < st.numWriters) &&
    decide (needed < (st.numWriters : Int))

/-- Model of adjustWriters: when the tuning gate and the adjust-interval
gate pass (shouldAdjustWriter), update the saturation counter, compute
and adjust the writers needed, then expand or reduce by one. -/
def adjustWriters (env : TunerEnv) (st : TunerSt) : TunerSt :=
  if env.shouldAdjust ∧ env.enableWriterTuning then
    let st1 := meetMinimumDrainRate env st
    let needed := adjustNumWritersNeeded env st1 (numWritersNeeded env st1)
    if canExpandWriters env st1 needed then expandWriters env st1
    else if canReduceWriters env st1 needed then reduceWriters env st1
    else st1
  else st

/-- meetMinimumDrainRate touches only the saturation counter. -/
theorem meetMinimumDrainRate_fields (env : TunerEnv) (st : TunerSt) :
    (meetMinimumDrainRate env st).numWriters = st.numWriters ∧
      (meetMinimumDrainRate env st).tokenVal = st.tokenVal := by
  rw [meetMinimumDrainRate]
  by_cases h1 : env.meanDrainInterval * st.numWriters < st.minimumDrainRate
  · rw [if_pos h1]
    by_cases h2 : st.saturateCount < st.threshold
    · rw [if_pos h2]
      exact ⟨rfl, rfl⟩
    · rw [if_neg h2]
      exact ⟨rfl, rfl⟩
  · rw [if_neg h1]
    by_cases h2 : 0 < st.saturateCount
    · rw [if_pos h2]
      exact ⟨rfl, rfl⟩
    · rw [if_neg h2]
      exact ⟨rfl, rfl⟩

/-- Growing startWriters sets the pool size and keeps the token value. -/
theorem startWriters_grow (st : TunerSt) (n : Nat) (h : st.numWriters < n) :
    (startWriters st n).numWriters = n ∧ (startWriters st n).tokenVal = st.tokenVal := by
  rw [startWriters, if_neg (by omega)]
  by_cases hch : st.cmdChLen < n
  · rw [if_pos hch]
    exact ⟨rfl, rfl⟩
  · rw [if_neg hch]
    exact ⟨rfl, rfl⟩

/-- Expansion with a positive token balance and positive mean drain rate
adds exactly one writer and spends exactly one token. -/
theorem expandWriters_success (env : TunerEnv) (st : TunerSt)
    (hmean : 0 < env.meanDrain * (st.numWriters : ℚ)) (htok : 0 < st.tokenVal) :
    (expandWriters env st).numWriters = st.numWriters + 1 ∧
      (expandWriters env st).tokenVal = st.tokenVal - 1 := by
  have hdec : tokDecrement st.tokenVal 1 false = (st.tokenVal - 1, 1) := by
    rw [tokDecrement, if_pos (Or.inl htok)]
    simp only [Bool.false_eq_true, if_false]
    rw [min_eq_left (by omega)]
    rfl
  have hs := startWriters_grow { st with tokenVal := st.tokenVal - 1 }
    (st.numWriters + 1) (by simp)
  rw [expandWriters]
  simp only [hdec, if_pos hmean]
  norm_num
  exact hs

/-- Expansion with a non-positive token balance changes nothing. -/
theorem expandWriters_noToken (env : TunerEnv) (st : TunerSt) (htok : st.tokenVal ≤ 0) :
    expandWriters env st = st := by
  rw [expandWriters]
  by_cases hm : 0 < env.meanDrain * (st.numWriters : ℚ)
  · have hdec : tokDecrement st.tokenVal 1 false = (st.tokenVal, 0) := by
      rw [tokDecrement, if_neg]
      simp only [Bool.false_eq_true, or_false, not_lt]
      exact htok
    simp only [hdec, if_pos hm]
    norm_num
  · simp only [if_neg hm]

/-- Reduction from a pool of more than one writer removes exactly one
writer and refunds exactly one token. -/
theorem reduceWriters_step (env : TunerEnv) (st : TunerSt) (h : 1 < st.numWriters) :
    (reduceWriters env st).numWriters = st.numWriters - 1 ∧
      (reduceWriters env st).tokenVal = st.tokenVal + 1 := by
  rw [reduceWriters, stopWriters]
  rw [if_neg (by omega)]
  exact ⟨rfl, rfl⟩

/-- If more writers are needed than present after adjustment, the drain
rate must have been positive (all flat-drain branches return at most the
current pool size). -/
theorem needed_gt_imp_drain_pos (env : TunerEnv) (st : TunerSt)
    (h1 : 1 ≤ st.numWriters)
    (hgt : (st.numWriters : Int) < adjustNumWritersNeeded env st (numWritersNeeded env st)) :
    0 < env.meanDrain := by
  by_contra hdp
  have hn : numWritersNeeded env st = 1 ∨ numWritersNeeded env st = st.numWriters := by
    rw [numWritersNeeded, if_neg hdp]
    by_cases hm : env.meanMutation ≤ 0
    · left
      rw [if_pos hm]
    · right
      rw [if_neg hm]
  have hle : numWritersNeeded env st ≤ (st.numWriters : Int) := by
    rcases hn with hn | hn <;> omega
  rw [adjustNumWritersNeeded] at hgt
  by_cases hb1 : st.tokenVal < 0 ∧ env.randVal < (st.numWriters : ℚ) / (st.maxNumWriters : ℚ)
  · rw [if_pos hb1] at hgt
    omega
  · rw [if_neg hb1] at hgt
    by_cases hb2 : env.minMem = true ∧ (st.numWriters : Int) < numWritersNeeded env st
    · rw [if_pos hb2] at hgt
      omega
    · rw [if_neg hb2] at hgt
      by_cases hb3 : env.memFull = true ∧ (st.numWriters : Int) < numWritersNeeded env st ∧
          (numWritersPerPartition st : Int) < numWritersNeeded env st
      · exact absurd hb3.2.1 (not_lt.mpr hle)
      · rw [if_neg hb3] at hgt
        exact absurd hgt (not_lt.mpr hle)

/-- C7: one adjustWriters invocation changes numWriters by at most one;
when it grows, a token was successfully reserved (positive balance) and
is spent; when the token balance is not positive an attempted expansion
changes nothing; when it shrinks, the pool had more than one writer and
one token is refunded; when the pool size is unchanged the token balance
is unchanged. -/
theorem adjustWriters_one_step (env : TunerEnv) (st : TunerSt) (h1 : 1 ≤ st.numWriters) :
    ((adjustWriters env st).numWriters ≤ st.numWriters + 1 ∧
      st.numWriters - 1 ≤ (adjustWriters env st).numWriters) ∧
    ((adjustWriters env st).numWriters = st.numWriters + 1 →
      0 < st.tokenVal ∧ (adjustWriters env st).tokenVal = st.tokenVal - 1) ∧
    ((adjustWriters env st).numWriters + 1 = st.numWriters →
      1 < st.numWriters ∧ (adjustWriters env st).tokenVal = st.tokenVal + 1) ∧
    ((adjustWriters env st).numWriters = st.numWriters →
      (adjustWriters env st).tokenVal = st.tokenVal) := by
  rw [adjustWriters]
  by_cases hgate : env.shouldAdjust = true ∧ env.enableWriterTuning = true
  case neg =>
    rw [if_neg hgate]
    refine ⟨⟨by omega, by omega⟩, ?_, ?_, ?_⟩ <;> intro h <;> omega
  case pos =>
    rw [if_pos hgate]
    have hf := meetMinimumDrainRate_fields env st
    set st1 := meetMinimumDrainRate env st with hst1
    set needed := adjustNumWritersNeeded env st1 (numWritersNeeded env st1) with hneeded
    by_cases hce : canExpandWriters env st1 needed = true
    · rw [if_pos hce]
      have hlt : (st1.numWriters : Int) < needed := by
        have hc2 := hce
        rw [canExpandWriters] at hc2
        simp only [Bool.and_eq_true, decide_eq_true_eq] at hc2
        exact hc2.2
      have hdrain : 0 < env.meanDrain :=
        needed_gt_imp_drain_pos env st1 (by omega) (by rw [← hneeded]; exact hlt)
      have hmean : 0 < env.meanDrain * (st1.numWriters : ℚ) := by
        apply mul_pos hdrain
        have hcast : (1 : ℚ) ≤ (st1.numWriters : ℚ) := by
          exact_mod_cast (by omega : 1 ≤ st1.numWriters)
        linarith
      by_cases htok : 0 < st1.tokenVal
      · have hx := expandWriters_success env st1 hmean htok
        refine ⟨⟨by omega, by omega⟩, ?_, ?_, ?_⟩ <;> intro h <;> rw [hx.1] at h
        · refine ⟨by omega, ?_⟩
          rw [hx.2]
          omega
        · exact absurd h (by omega)
        · exact absurd h (by omega)
      · have hx := expandWriters_noToken env st1 (by omega)
        rw [hx]
        refine ⟨⟨by omega, by omega⟩, ?_, ?_, ?_⟩ <;> intro h <;> omega
    · rw [if_neg hce]
      by_cases hcr : canReduceWriters env st1 needed = true
      · rw [if_pos hcr]
        have hgt1 : 1 < st1.numWriters := by
          have hc2 := hcr
          rw [canReduceWriters] at hc2
          simp only [Bool.and_eq_true, decide_eq_true_eq] at hc2
          exact hc2.1.2
        have hx := reduceWriters_step env st1 hgt1
        refine ⟨⟨by omega, by omega⟩, ?_, ?_, ?_⟩ <;> intro h <;> rw [hx.1] at h
        · exact absurd h (by omega)
        · refine ⟨by omega, ?_⟩
          rw [hx.2]
          omega
        · exact absurd h (by omega)
      · rw [if_neg hcr]
        refine ⟨⟨by omega, by omega⟩, ?_, ?_, ?_⟩ <;> intro h <;> omega

/-- Witness for C7 at a concrete state with one writer, tokens available
and a positive drain rate. -/
theorem adjustWriters_one_step_witness :
    (adjustWriters ⟨true, true, 1, 1, 5, false, false, 1 / 2⟩
        ⟨1, 2, 3, 8, 1, 0, 0, 10, 1 / 10, 0, 0⟩).numWriters ≤ 1 + 1 := by
  exact (adjustWriters_one_step ⟨true, true, 1, 1, 5, false, false, 1 / 2⟩
      ⟨1, 2, 3, 8, 1, 0, 0, 10, 1 / 10, 0, 0⟩ (by decide)).1.1

/-! ## Scan iterator (Iterate / iterEqualKeys) -/

/-- Byte-lexicographic strict order, the ordering of the mainstore. -/
def lexLt : Bytes → Bytes → Bool
  | [], [] => false
  | [], _ :: _ => true
  | _ :: _, [] => false
  | a :: as, b :: bs => if a < b then true else if b < a then false else lexLt as bs

/-- Scan inclusion of the low and high bounds. -/
inductive Inclusion
  | Neither
  | Low
  | High
  | Both
deriving DecidableEq

/-- The seek step of Iterate: SeekFirst when low is empty, otherwise Seek
to the first entry not below low. -/
def seekList (entries : List Bytes) (low : Bytes) : List Bytes :=
  if low = [] then entries else entries.dropWhile (fun e => lexLt e low)

/-- The SetEndKey step of Iterate: no bound when high is empty; otherwise
iteration is valid strictly below the end key, which is high itself or,
when the high bound is inclusive, GenNextBiggerKey(high) (an external
codec function, passed as nextBigger). -/
def boundList (l : List Bytes) (high : Bytes) (incl : Inclusion)
    (nextBigger : Bytes → Bytes) : List Bytes :=
  if high = [] then l
  else
    let endKey := if incl = Inclusion.High ∨ incl = Inclusion.Both then nextBigger high else high
    l.takeWhile (fun e => lexLt e endKey)

/-- The low-inclusion step of Iterate: when low was sought and inclusion
is Neither or High, advance past the run of entries cmpFn-equal to low
(iterEqualKeys with a nil callback). -/
def skipList (l : List Bytes) (low : Bytes) (incl : Inclusion)
    (cmpFn : Bytes → Bytes → Int) : List Bytes :=
  if low = [] then l
  else if incl = Inclusion.Neither ∨ incl = Inclusion.High then
    l.dropWhile (fun e => decide (cmpFn low e = 0))
  else l

/-- The region of the store the Iterate loop walks: seek, then the end
bound, then the low-inclusion skip. -/
def iterScanRegion (entries : List Bytes) (low high : Bytes) (incl : Inclusion)
    (cmpFn : Bytes → Bytes → Int) (nextBigger : Bytes → Bytes) : List Bytes :=
  skipList (boundList (seekList entries low) high incl nextBigger) low incl cmpFn

/-- Model of plasmaSnapshot.Iterate: over the scan region, the main loop
invokes the callback while cmpFn(high, entry) stays positive and breaks
at the first entry where it is not; then, when the high bound is
inclusive, iterEqualKeys walks the run of entries cmpFn-equal to high and
invokes the callback on them. The returned list is the sequence of
entries passed to the callback. -/
def iterateScan (entries : List Bytes) (low high : Bytes) (incl : Inclusion)
    (cmpFn : Bytes → Bytes → Int) (nextBigger : Bytes → Bytes) : List Bytes :=
  let region := iterScanRegion entries low high incl cmpFn nextBigger
  region.takeWhile (fun e => decide (0 < cmpFn high e)) ++
    (if incl = Inclusion.Both ∨ incl = Inclusion.High then
      (region.dropWhile (fun e => decide (0 < cmpFn high e))).takeWhile
        (fun e => decide (cmpFn high e = 0))
    else [])

/-- On a list along which a non-positive comparison propagates forward,
the positive prefix is the whole positive part. -/
theorem takeWhile_pos_eq_filter {α : Type} (c : α → Int) :
    ∀ l : List α, l.Pairwise (fun e f => c e ≤ 0 → c f ≤ 0) →
      l.takeWhile (fun e => decide (0 < c e)) = l.filter (fun e => decide (0 < c e))
  | [], _ => rfl
  | x :: xs, h => by
    rcases List.pairwise_cons.mp h with ⟨hx, htl⟩
    by_cases hcx : 0 < c x
    · rw [List.takeWhile_cons, List.filter_cons, decide_eq_true hcx]
      simp only [if_true]
      rw [takeWhile_pos_eq_filter c xs htl]
    · rw [List.takeWhile_cons, List.filter_cons, decide_eq_false hcx]
      simp only [Bool.false_eq_true, if_false]
      symm
      rw [List.filter_eq_nil_iff]
      intro a ha
      simp only [decide_eq_true_eq, not_lt]
      exact hx a ha (le_of_not_lt hcx)

/-- On a list of non-positive comparisons along which negativity
propagates forward, the zero prefix is the whole zero part. -/
theorem takeWhile_zero_of_nonpos {α : Type} (c : α → Int) :
    ∀ l : List α, (∀ f ∈ l, c f ≤ 0) → l.Pairwise (fun e f => c e < 0 → c f < 0) →
      l.takeWhile (fun e => decide (c e = 0)) = l.filter (fun e => decide (c e = 0))
  | [], _, _ => rfl
  | x :: xs, hall, h => by
    rcases List.pairwise_cons.mp h with ⟨hx, htl⟩
    by_cases hcx : c x = 0
    · rw [List.takeWhile_cons, List.filter_cons, decide_eq_true hcx]
      simp only [if_true]
      rw [takeWhile_zero_of_nonpos c xs (fun f hf => hall f (List.mem_cons_of_mem _ hf)) htl]
    · rw [List.takeWhile_cons, List.filter_cons, decide_eq_false hcx]
      simp only [Bool.false_eq_true, if_false]
      symm
      rw [List.filter_eq_nil_iff]
      intro a ha
      simp only [decide_eq_true_eq]
      have hneg : c x < 0 := lt_of_le_of_ne (hall x (List.mem_cons_self _ _)) hcx
      exact ne_of_lt (hx a ha hneg)

/-- After dropping the positive prefix, the leading zero run is the whole
zero part of the list. -/
theorem dropWhile_takeWhile_zero_eq_filter {α : Type} (c : α → Int) :
    ∀ l : List α,
      l.Pairwise (fun e f => (c e ≤ 0 → c f ≤ 0) ∧ (c e < 0 → c f < 0)) →
      (l.dropWhile (fun e => decide (0 < c e))).takeWhile (fun e => decide (c e = 0)) =
        l.filter (fun e => decide (c e = 0))
  | [], _ => rfl
  | x :: xs, h => by
    rcases List.pairwise_cons.mp h with ⟨hx, htl⟩
    by_cases hcx : 0 < c x
    · rw [List.dropWhile_cons, List.filter_cons, decide_eq_true hcx]
      simp only [if_true]
      have hne : ¬ c x = 0 := by omega
      rw [decide_eq_false hne]
      simp only [Bool.false_eq_true, if_false]
      exact dropWhile_takeWhile_zero_eq_filter c xs htl
    · rw [List.dropWhile_cons, decide_eq_false hcx]
      simp only [Bool.false_eq_true, if_false]
      have hall : ∀ f ∈ x :: xs, c f ≤ 0 := by
        intro f hf
        rcases List.mem_cons.mp hf with hf | hf
        · subst hf
          exact le_of_not_lt hcx
        · exact (hx f hf).1 (le_of_not_lt hcx)
      exact takeWhile_zero_of_nonpos c (x :: xs) hall
        (h.imp (fun hp => hp.2))

/-- The scan region is a sublist of the store. -/
theorem iterScanRegion_sublist (entries : List Bytes) (low high : Bytes) (incl : Inclusion)
    (cmpFn : Bytes → Bytes → Int) (nextBigger : Bytes → Bytes) :
    (iterScanRegion entries low high incl cmpFn nextBigger).Sublist entries := by
  have h1 : (seekList entries low).Sublist entries := by
    rw [seekList]
    split
    · exact List.Sublist.refl _
    · exact List.dropWhile_sublist _
  have h2 : (boundList (seekList entries low) high incl nextBigger).Sublist
      (seekList entries low) := by
    rw [boundList]
    split
    · exact List.Sublist.refl _
    · exact List.takeWhile_sublist _
  have h3 : (iterScanRegion entries low high incl cmpFn nextBigger).Sublist
      (boundList (seekList entries low) high incl nextBigger) := by
    rw [iterScanRegion, skipList]
    split
    · exact List.Sublist.refl _
    · split
      · exact List.dropWhile_sublist _
      · exact List.Sublist.refl _
  exact (h3.trans h2).trans h1

/-- C6: when the high-bound comparison degrades monotonically along the
store order (true of the exact and prefix comparators on a sorted store),
Iterate invokes the callback on exactly the entries of the scan region -
sought at the first entry when low is empty, at low otherwise, minus the
low-equal run when inclusion is Neither or High - that compare strictly
below high, followed (exactly when inclusion includes High) by the
entries of the region that compare equal to high. -/
theorem iterateScan_callbacks (entries : List Bytes) (low high : Bytes) (incl : Inclusion)
    (cmpFn : Bytes → Bytes → Int) (nextBigger : Bytes → Bytes)
    (hpw : entries.Pairwise (fun e f =>
      (cmpFn high e ≤ 0 → cmpFn high f ≤ 0) ∧ (cmpFn high e < 0 → cmpFn high f < 0))) :
    iterateScan entries low high incl cmpFn nextBigger =
      (iterScanRegion entries low high incl cmpFn nextBigger).filter
          (fun e => decide (0 < cmpFn high e)) ++
        (if incl = Inclusion.Both ∨ incl = Inclusion.High then
          (iterScanRegion entries low high incl cmpFn nextBigger).filter
            (fun e => decide (cmpFn high e = 0))
        else []) := by
  have hpwr := hpw.sublist (iterScanRegion_sublist entries low high incl cmpFn nextBigger)
  rw [iterateScan]
  congr 1
  · exact takeWhile_pos_eq_filter _ _ (hpwr.imp (fun hp => hp.1))
  · by_cases hi : incl = Inclusion.Both ∨ incl = Inclusion.High
    · rw [if_pos hi, if_pos hi]
      exact dropWhile_takeWhile_zero_eq_filter _ _ hpwr
    · rw [if_neg hi, if_neg hi]

/-- The exact comparator (compareExact) as an integer-valued function:
positive when the bound is lexicographically above the entry. -/
def cmpExact (bound e : Bytes) : Int :=
  if lexLt e bound then 1 else if lexLt bound e then -1 else 0

/-- Witness for C6: a concrete sorted store scanned over (low, high] with
a prefix-closed comparator; the callback list matches the filter
characterization. -/
theorem iterateScan_callbacks_witness :
    iterateScan [[1], [2], [2], [3], [4]] [2] [3] Inclusion.High cmpExact
        (fun h => h ++ [0]) =
      (iterScanRegion [[1], [2], [2], [3], [4]] [2] [3] Inclusion.High cmpExact
          (fun h => h ++ [0])).filter (fun e => decide (0 < cmpExact [3] e)) ++
        (iterScanRegion [[1], [2], [2], [3], [4]] [2] [3] Inclusion.High cmpExact
          (fun h => h ++ [0])).filter (fun e => decide (cmpExact [3] e = 0)) := by
  have h := iterateScan_callbacks [[1], [2], [2], [3], [4]] [2] [3] Inclusion.High cmpExact
    (fun h => h ++ [0]) (by decide)
  simpa using h

end PlasmaVerif
